import Mathlib

/-!
Verification development for the AdMarket repository.

Two groups of definitions:
* The hybrid relevance-ranking engine (corpus records, tokenizer, inverted
  postings, BM25 scorer, regex boost, hybrid ranker, stack filter, domain
  auto-selection, the `search` entry point).  The engine's implementation
  file (`scripts/core.py`) is not present in the source tree, so these
  definitions are modelled from the specification's component contracts.
* Small utility functions that do appear in the source tree
  (`detectAIType`, `formatSubscribers`, the Telegram language detector
  lookup), embedded directly from the TypeScript source.
-/

namespace AdMarket

/-- Modelled from the spec: a `Record` of one domain's knowledge base
(`scripts/core.py` is absent from the tree).  A record is a mapping of named
text fields plus an optional technology-stack tag; its identifier is its
row position in the domain's record list. -/
structure Record where
  fields : List (String × String)
  stack : Option String

/-- Modelled from the spec: the token accumulator of the Tokenizer: walk the
(already lower-cased) characters, extending the current token on an
alphanumeric character and emitting it at every non-alphanumeric boundary,
dropping empty tokens. -/
def tokenizeChars : List Char → List Char → List (List Char)
  | cur, [] => if cur.isEmpty then [] else [cur.reverse]
  | cur, c :: cs =>
    if c.isAlphanum then tokenizeChars (c :: cur) cs
    else if cur.isEmpty then tokenizeChars [] cs
    else cur.reverse :: tokenizeChars [] cs

/-- Modelled from the spec: the Tokenizer/Normalizer of `scripts/core.py`:
lowercase, split on non-alphanumeric boundaries, drop empty tokens. -/
def tokenize (s : String) : List String :=
  (tokenizeChars [] (s.toList.map Char.toLower)).map fun cs => String.mk cs

/-- Modelled from the spec: the token sequence of a record, concatenating the
tokenizations of all of its text fields. -/
def tokensOf (d : Record) : List String :=
  (d.fields.map fun f => tokenize f.2).flatten

/-- Modelled from the spec: raw term frequency of term `t` within record `d`. -/
def tf (t : String) (d : Record) : ℕ :=
  (tokensOf d).count t

/-- Modelled from the spec: the field length `|d|` of a record (its number of
tokens), retained by the index builder for BM25. -/
def dlen (d : Record) : ℕ :=
  (tokensOf d).length

/-- Modelled from the spec: the inverted-index postings for term `t`, built by
walking the record list from position `i`: each posting carries the record
position and the raw term frequency of `t` in that record. -/
def postingsFrom (t : String) : ℕ → List Record → List (ℕ × ℕ)
  | _, [] => []
  | i, d :: ds =>
    if t ∈ tokensOf d then (i, tf t d) :: postingsFrom t (i + 1) ds
    else postingsFrom t (i + 1) ds

/-- Modelled from the spec: document frequency of `t`, the number of records
of the domain containing `t`. -/
def df (t : String) (recs : List Record) : ℕ :=
  (recs.filter fun d => decide (t ∈ tokensOf d)).length

/-- Modelled from the spec: the BM25 inverse document frequency,
`ln((N - df + 0.5) / (df + 0.5) + 1)`. -/
noncomputable def idf (n dfv : ℕ) : ℝ :=
  Real.log (((n : ℝ) - (dfv : ℝ) + 1 / 2) / ((dfv : ℝ) + 1 / 2) + 1)

/-- Modelled from the spec: the domain's average record length. -/
noncomputable def avgdl (recs : List Record) : ℝ :=
  ((recs.map fun d => (dlen d : ℝ)).sum) / (recs.length : ℝ)

/-- Modelled from the spec: the record length at position `i` of the record
list (0 when out of range), as stored by the index builder. -/
noncomputable def lenAt (recs : List Record) (i : ℕ) : ℝ :=
  match recs.get? i with
  | some d => (dlen d : ℝ)
  | none => 0

/-- Modelled from the spec: the BM25 contribution of one term to one record,
`idf * (tf * (k1 + 1)) / (tf + k1 * (1 - b + b * |d| / avgdl))`. -/
noncomputable def contrib (k1 b iv : ℝ) (tfv : ℕ) (dl av : ℝ) : ℝ :=
  iv * ((tfv : ℝ) * (k1 + 1)) / ((tfv : ℝ) + k1 * (1 - b + b * dl / av))

/-- Modelled from the spec: add `x` to the accumulated score of record `i` in
a score accumulator (an association list from record position to score),
creating the entry when absent. -/
noncomputable def addScore : List (ℕ × ℝ) → ℕ → ℝ → List (ℕ × ℝ)
  | [], i, x => [(i, x)]
  | (k, v) :: m, i, x =>
    if k = i then (k, v + x) :: m else (k, v) :: addScore m i x

/-- Modelled from the spec: the BM25 scorer's processing of a single query
term: fetch the term's postings, compute its idf from the postings length,
and accumulate the contribution of each posting into the score map. -/
noncomputable def applyTerm (k1 b : ℝ) (recs : List Record)
    (m : List (ℕ × ℝ)) (t : String) : List (ℕ × ℝ) :=
  let ps := postingsFrom t 0 recs
  let iv := idf recs.length ps.length
  ps.foldl (fun acc p => addScore acc p.1 (contrib k1 b iv p.2 (lenAt recs p.1) (avgdl recs))) m

/-- Modelled from the spec: the BM25 scorer: fold the distinct query terms
over an initially empty score map.  Records sharing no query term never
receive an entry. -/
noncomputable def bm25ScoreMap (k1 b : ℝ) (recs : List Record)
    (qts : List String) : List (ℕ × ℝ) :=
  qts.dedup.foldl (applyTerm k1 b recs) []

/-- Modelled from the spec: the closed-form contribution of term `t` to
record `d` in the given domain. -/
noncomputable def contribOf (k1 b : ℝ) (recs : List Record) (t : String) (d : Record) : ℝ :=
  contrib k1 b (idf recs.length (df t recs)) (tf t d) ((dlen d : ℝ)) (avgdl recs)

/-- Modelled from the spec: the closed-form BM25 score of record `d`: the sum,
over distinct query terms present in `d`, of the per-term contributions. -/
noncomputable def bm25At (k1 b : ℝ) (recs : List Record) (qts : List String) (d : Record) : ℝ :=
  ((qts.dedup.filter fun t => decide (t ∈ tokensOf d)).map fun t => contribOf k1 b recs t d).sum

/-- Lower-cased character list of a string, for case-insensitive matching. -/
def lowerChars (s : String) : List Char :=
  s.toList.map Char.toLower

/-- Character-list prefix test. -/
def isPrefixB : List Char → List Char → Bool
  | [], _ => true
  | _ :: _, [] => false
  | a :: as, c :: cs => a == c && isPrefixB as cs

/-- Character-list substring test. -/
def containsSub (pat : List Char) : List Char → Bool
  | [] => isPrefixB pat []
  | c :: rest => isPrefixB pat (c :: rest) || containsSub pat rest

/-- Modelled from the spec: the designated exact-match fields scanned by the
Regex Matcher. -/
def regexFieldNames : List String :=
  ["tags", "keywords"]

/-- Modelled from the spec: the Regex Matcher's per-record test, modelled as a
case-insensitive substring match of the raw query against the designated
exact-match fields (the pattern-compilation fallback path of the contract). -/
def recMatches (q : String) (d : Record) : Bool :=
  (d.fields.filter fun f => regexFieldNames.contains f.1).any fun f =>
    containsSub (lowerChars q) (lowerChars f.2)

/-- Modelled from the spec: the Regex Matcher's boost map: a flat additive
bonus for every record matched, keyed by record position; unmatched records
receive no entry. -/
def regexBoostFrom (q : String) (bonus : ℝ) : ℕ → List Record → List (ℕ × ℝ)
  | _, [] => []
  | i, d :: ds =>
    if recMatches q d then (i, bonus) :: regexBoostFrom q bonus (i + 1) ds
    else regexBoostFrom q bonus (i + 1) ds

/-- Modelled from the spec: the Hybrid Ranker's final score of the record at
position `i`: `w_bm25 * bm25 + w_regex * boost`, a missing signal taken as 0. -/
noncomputable def finalScore (wb wr : ℝ) (bm rx : List (ℕ × ℝ)) (i : ℕ) : ℝ :=
  wb * ((bm.lookup i).getD 0) + wr * ((rx.lookup i).getD 0)

/-- Modelled from the spec: the Hybrid Ranker's result order: descending final
score, ties broken by ascending original record position. -/
def rankLE (p q : ℕ × ℝ) : Prop :=
  q.2 < p.2 ∨ (p.2 = q.2 ∧ p.1 ≤ q.1)

noncomputable instance rankLEDecidable : DecidableRel rankLE := fun _ _ =>
  inferInstanceAs (Decidable (_ ∨ _))

instance rankLETotal : IsTotal (ℕ × ℝ) rankLE where
  total p q := by
    rcases lt_trichotomy p.2 q.2 with h | h | h
    · exact Or.inr (Or.inl h)
    · rcases Nat.le_total p.1 q.1 with hn | hn
      · exact Or.inl (Or.inr ⟨h, hn⟩)
      · exact Or.inr (Or.inr ⟨h.symm, hn⟩)
    · exact Or.inl (Or.inl h)

instance rankLETrans : IsTrans (ℕ × ℝ) rankLE where
  trans p q r h₁ h₂ := by
    rcases h₁ with h₁ | ⟨e₁, n₁⟩
    · rcases h₂ with h₂ | ⟨e₂, _⟩
      · exact Or.inl (h₂.trans h₁)
      · exact Or.inl (e₂ ▸ h₁)
    · rcases h₂ with h₂ | ⟨e₂, n₂⟩
      · exact Or.inl (e₁ ▸ h₂)
      · exact Or.inr ⟨e₁.trans e₂, n₁.trans n₂⟩

/-- Modelled from the spec: whether the record at position `i` may be returned
under stack hint `s`: it must be stack-agnostic (untagged) or tagged with `s`. -/
def stackOkB (recs : List Record) (s : String) (i : ℕ) : Bool :=
  match recs.get? i with
  | some d => decide (d.stack = none ∨ d.stack = some s)
  | none => false

/-- Modelled from the spec: the candidate record positions, narrowed by the
Stack Filter when a stack hint is supplied. -/
def eligiblePositions (recs : List Record) (stk : Option String) : List ℕ :=
  match stk with
  | none => List.range recs.length
  | some s => (List.range recs.length).filter fun i => stackOkB recs s i

/-- Modelled from the spec: the engine's fixed tunable configuration: BM25
constants `k1`, `b`, the blend weights, and the regex bonus. -/
structure Config where
  k1 : ℝ
  b : ℝ
  wb : ℝ
  wr : ℝ
  bonus : ℝ

/-- Modelled from the spec: the Hybrid Ranker over one domain: score the
eligible candidate positions, exclude final score 0, and sort descending by
score with ties broken by ascending original position. -/
noncomputable def rankDomain (cfg : Config) (recs : List Record)
    (q : String) (stk : Option String) : List (ℕ × ℝ) :=
  let bm := bm25ScoreMap cfg.k1 cfg.b recs (tokenize q)
  let rx := regexBoostFrom q cfg.bonus 0 recs
  List.insertionSort rankLE
    (((eligiblePositions recs stk).map fun i => (i, finalScore cfg.wb cfg.wr bm rx i)).filter
      fun p => decide (p.2 ≠ 0))

/-- Modelled from the spec: the alternative placement of the Stack Filter: a
post-filter applied to the ranked, unnarrowed result list. -/
noncomputable def rankDomainPost (cfg : Config) (recs : List Record)
    (q : String) (s : String) : List (ℕ × ℝ) :=
  (rankDomain cfg recs q none).filter fun p => stackOkB recs s p.1

/-- Modelled from the spec: the default result-count cap used when no limit is
supplied. -/
def defaultCap : ℕ := 20

/-- Modelled from the spec: one domain's ranked results truncated to the
requested limit (default cap when unspecified). -/
noncomputable def searchDomain (cfg : Config) (recs : List Record)
    (q : String) (stk : Option String) (lim : Option ℕ) : List (ℕ × ℝ) :=
  (rankDomain cfg recs q stk).take (lim.getD defaultCap)

/-- Modelled from the spec: one domain's backing table as seen by the Corpus
Loader: `none` models a missing, unreadable, or schema-mismatched file. -/
structure DomainData where
  name : String
  table : Option (List Record)

/-- Modelled from the spec: the engine's error taxonomy. -/
inductive SearchError where
  | corpusLoad : SearchError
  | invalidDomain : SearchError
  | invalidStack : SearchError
  deriving DecidableEq

/-- Modelled from the spec: load every domain's table; fails when any backing
file fails to load. -/
def loadAll : List DomainData → Option (List (List Record))
  | [] => some []
  | dd :: ds =>
    match dd.table, loadAll ds with
    | some t, some ts => some (t :: ts)
    | _, _ => none

/-- Modelled from the spec: the Domain Selector's aggregate relevance of one
domain for a query: the final score of that domain's top result, 0 when the
domain has no result. -/
noncomputable def agg (cfg : Config) (q : String) (stk : Option String)
    (recs : List Record) : ℝ :=
  match rankDomain cfg recs q stk with
  | [] => 0
  | p :: _ => p.2

/-- Modelled from the spec: the Domain Selector: keep the first domain whose
aggregate score is maximal, requiring the aggregate to clear the relevance
floor 0; `none` reports no confident domain match. -/
noncomputable def pickBestTable (cfg : Config) (q : String) (stk : Option String)
    (ts : List (List Record)) : Option (List Record) :=
  (ts.foldl
    (fun best t =>
      match best with
      | none => if 0 < agg cfg q stk t then some (t, agg cfg q stk t) else none
      | some (bt, bs) =>
        if bs < agg cfg q stk t then some (t, agg cfg q stk t) else some (bt, bs))
    none).map fun p => p.1

/-- Modelled from the spec: search across all domains when no domain was
specified: auto-select the best domain and rank within it; an empty list when
no domain clears the relevance floor. -/
noncomputable def autoSearch (cfg : Config) (ts : List (List Record))
    (q : String) (stk : Option String) (lim : Option ℕ) : List (ℕ × ℝ) :=
  match pickBestTable cfg q stk ts with
  | none => []
  | some recs => searchDomain cfg recs q stk lim

/-- Modelled from the spec: the supplied domain hint resolves to a known
domain (vacuously true when no hint is supplied). -/
def domainResolves (domains : List DomainData) (dom : Option String) : Prop :=
  match dom with
  | none => True
  | some dn => (domains.find? fun dd => dd.name == dn).isSome = true

/-- Modelled from the spec: the supplied stack hint is a known stack
identifier (vacuously true when no hint is supplied). -/
def stackValid (validStacks : List String) (stk : Option String) : Prop :=
  match stk with
  | none => True
  | some s => validStacks.contains s = true

/-- Modelled from the spec: every corpus file the query needs loads
successfully: the resolved domain's table when a domain hint is given, every
domain's table when the Domain Selector must run. -/
def corpusOK (domains : List DomainData) (dom : Option String) : Prop :=
  match dom with
  | none => (loadAll domains).isSome = true
  | some dn =>
    match domains.find? fun dd => dd.name == dn with
    | some dd => dd.table.isSome = true
    | none => True

/-- Modelled from the spec: the result list `search` returns on its success
path (meaningful only when the inputs validate). -/
noncomputable def searchResults (cfg : Config) (domains : List DomainData)
    (q : String) (dom : Option String) (stk : Option String) (lim : Option ℕ) :
    List (ℕ × ℝ) :=
  match dom with
  | some dn =>
    match domains.find? fun dd => dd.name == dn with
    | some dd =>
      match dd.table with
      | some recs => searchDomain cfg recs q stk lim
      | none => []
    | none => []
  | none =>
    match loadAll domains with
    | some ts => autoSearch cfg ts q stk lim
    | none => []

/-- Modelled from the spec: the `search` entry point: validate the domain
hint, then the stack hint, then load the needed corpora, then rank; an empty
result list is a normal `Except.ok` value, never an error. -/
noncomputable def search (cfg : Config) (domains : List DomainData)
    (validStacks : List String) (q : String) (dom : Option String)
    (stk : Option String) (lim : Option ℕ) :
    Except SearchError (List (ℕ × ℝ)) :=
  match dom with
  | some dn =>
    match domains.find? fun dd => dd.name == dn with
    | none => .error .invalidDomain
    | some dd =>
      match stk with
      | some s =>
        if validStacks.contains s then
          match dd.table with
          | none => .error .corpusLoad
          | some recs => .ok (searchDomain cfg recs q stk lim)
        else .error .invalidStack
      | none =>
        match dd.table with
        | none => .error .corpusLoad
        | some recs => .ok (searchDomain cfg recs q stk lim)
  | none =>
    match stk with
    | some s =>
      if validStacks.contains s then
        match loadAll domains with
        | none => .error .corpusLoad
        | some ts => .ok (autoSearch cfg ts q stk lim)
      else .error .invalidStack
    | none =>
      match loadAll domains with
      | none => .error .corpusLoad
      | some ts => .ok (autoSearch cfg ts q stk lim)

/-- Marker-directory table of `detectAIType` (cli/src/utils/detect.ts): each
probed directory name paired with the assistant type it detects, in the fixed
priority order of the source's `existsSync` checks. -/
def aiMarkers : List (String × String) :=
  [(".claude", "claude"), (".cursor", "cursor"), (".windsurf", "windsurf"),
   (".agent", "antigravity"), (".github", "copilot"), (".kiro", "kiro"),
   (".codex", "codex"), (".roo", "roocode"), (".qoder", "qoder"),
   (".gemini", "gemini"), (".trae", "trae"), (".opencode", "opencode"),
   (".continue", "continue"), (".codebuddy", "codebuddy")]

/-- Shallow embedding of `detectAIType`: `ex` abstracts `existsSync` on the
working directory's entries.  The source pushes each detected type in the
fixed order of its checks, then suggests the unique type when exactly one was
detected, `all` when more than one was, and `null` otherwise. -/
def detectAIType (ex : String → Bool) : List String × Option String :=
  let detected := aiMarkers.foldl (fun acc m => if ex m.1 then acc ++ [m.2] else acc) []
  let suggested :=
    if detected.length = 1 then detected.head?
    else if 1 < detected.length then some "all" else none
  (detected, suggested)

/-- Fuelled floor of the base-2 logarithm; with fuel 64 it is exact for every
argument below `2 ^ 64`, which covers every quotient reachable from
exactly-representable JavaScript integer counts. -/
def floorLog2 : ℕ → ℕ → ℕ
  | 0, _ => 0
  | fuel + 1, n => if 2 ≤ n then floorLog2 fuel (n / 2) + 1 else 0

/-- Binary exponent of a positive natural: the `k` with `2 ^ k ≤ n < 2 ^ (k+1)`. -/
def exponentOf (n : ℕ) : ℕ := floorLog2 64 n

/-- Round the rational `num / den` to the nearest integer, ties to even —
the IEEE-754 mantissa rounding used by JavaScript division. -/
def roundMantissa (num den : ℕ) : ℕ :=
  let f := num / den
  let r2 := 2 * (num % den)
  if r2 < den then f
  else if den < r2 then f + 1
  else if f % 2 = 0 then f else f + 1

/-- The 53-bit significand of the binary64 value nearest `c / d` (for
`1 ≤ c / d`), scaled back by its binary exponent: the double equals
`mantissaVal c d / 2 ^ 52` exactly. -/
def mantissaVal (c d : ℕ) : ℕ :=
  roundMantissa (c * 2 ^ 52) (d * 2 ^ exponentOf (c / d)) * 2 ^ exponentOf (c / d)

/-- The exact rational value of the binary64 double nearest `c / d`. -/
def doubleVal (c d : ℕ) : ℚ :=
  (mantissaVal c d : ℚ) / 2 ^ 52

/-- ECMAScript `toFixed(1)` applied to the double value of `c / d`: the
integer tenths value nearest the double, a tie resolved toward the larger
value, computed as `⌊10 · double + 1/2⌋` in exact integer arithmetic. -/
def doubleTenths (c d : ℕ) : ℕ :=
  (20 * mantissaVal c d + 2 ^ 52) / 2 ^ 53

/-- Exact round-half-up of `c / d` to tenths — the rendering an exact
rational computation would produce, used to exhibit where the program's
float pipeline differs from it. -/
def exactHalfUpTenths (c d : ℕ) : ℕ :=
  (10 * c + d / 2) / d

/-- Rendering of a tenths value `t` as a decimal with exactly one fractional
digit, as produced by JavaScript's `toFixed(1)`. -/
def renderTenths (t : ℕ) : String :=
  toString (t / 10) ++ "." ++ toString (t % 10)

/-- Shallow embedding of `formatSubscribers`
(frontend/src/pages/FindChannels.tsx): `null` maps to `null`; counts of at
least one million render the IEEE-754 double value of `count / 1000000` with
one decimal digit and an `M` suffix; counts of at least one thousand render
the double value of `count / 1000` with one decimal digit and a `K` suffix;
smaller counts render as their plain decimal string.  The divisions are
binary64 divisions and `toFixed(1)` rounds the resulting double, both
modelled exactly in integer arithmetic. -/
def formatSubscribers (count : Option ℤ) : Option String :=
  match count with
  | none => none
  | some c =>
    if 1000000 ≤ c then some (renderTenths (doubleTenths c.toNat 1000000) ++ "M")
    else if 1000 ≤ c then some (renderTenths (doubleTenths c.toNat 1000) ++ "K")
    else some (toString c)

/-- Shallow embedding of `telegramLanguageDetector.lookup`
(frontend/src/i18n.ts): `none` models an absent Telegram language code (the
`undefined` fall-through, including the falsy empty string); a code starting
with `ru` selects `ru`, any other available code selects `en`. -/
def telegramLookup (code : Option String) : Option String :=
  match code with
  | none => none
  | some c =>
    if c = "" then none
    else if c.startsWith "ru" then some "ru"
    else some "en"

end AdMarket

namespace AdMarket

theorem foldl_detect (ex : String → Bool) (l : List (String × String)) :
    ∀ acc : List String,
      l.foldl (fun acc m => if ex m.1 then acc ++ [m.2] else acc) acc
        = acc ++ (l.filter fun m => ex m.1).map (fun m => m.2) := by
  induction l with
  | nil => intro acc; simp
  | cons a l ih =>
    intro acc
    cases h : ex a.1 with
    | false => simp [h, ih]
    | true => simp [h, ih]

/-- C8: `detectAIType` reports the detected assistant types in the fixed
priority order of its marker-directory checks, and suggests the unique
detected type when exactly one marker directory exists, `all` when two or
more exist, and nothing when none exists. -/
theorem detect_ai_type_suggested (ex : String → Bool) :
    (detectAIType ex).1 = (aiMarkers.filter fun m => ex m.1).map (fun m => m.2) ∧
    (detectAIType ex).2 =
      (match aiMarkers.filter (fun m => ex m.1) with
       | [] => none
       | [m] => some m.2
       | _ :: _ :: _ => some "all") := by
  have hdet :
      (detectAIType ex).1 = (aiMarkers.filter fun m => ex m.1).map (fun m => m.2) := by
    simp [detectAIType, foldl_detect]
  refine ⟨hdet, ?_⟩
  have hsug :
      (detectAIType ex).2 =
        (if ((aiMarkers.filter fun m => ex m.1).map (fun m => m.2)).length = 1 then
          ((aiMarkers.filter fun m => ex m.1).map (fun m => m.2)).head?
        else if 1 < ((aiMarkers.filter fun m => ex m.1).map (fun m => m.2)).length then
          some "all"
        else none) := by
    simp only [detectAIType, foldl_detect, List.nil_append]
  rw [hsug]
  generalize aiMarkers.filter (fun m => ex m.1) = F
  rcases F with _ | ⟨a, _ | ⟨b, t⟩⟩
  · simp
  · simp
  · simp only [List.length_map, List.length_cons]
    rw [if_neg (by omega), if_pos (by omega)]

theorem doubleTenths_interval (c d : ℕ) :
    10 * doubleVal c d - 1 / 2 < (doubleTenths c d : ℚ) ∧
    (doubleTenths c d : ℚ) ≤ 10 * doubleVal c d + 1 / 2 := by
  simp only [doubleTenths, doubleVal]
  set N := mantissaVal c d with hN
  have hq := Nat.div_add_mod (20 * N + 2 ^ 52) (2 ^ 53)
  have hr : (20 * N + 2 ^ 52) % 2 ^ 53 < 2 ^ 53 := Nat.mod_lt _ (by positivity)
  set t := (20 * N + 2 ^ 52) / 2 ^ 53 with ht
  set r := (20 * N + 2 ^ 52) % 2 ^ 53 with hr2
  have hQ1 : ((2 : ℚ) ^ 53) * t + r = 20 * N + 2 ^ 52 := by exact_mod_cast hq
  have hQ2 : (r : ℚ) < 2 ^ 53 := by exact_mod_cast hr
  have hQ3 : (0 : ℚ) ≤ r := Nat.cast_nonneg r
  constructor
  · have hlhs : 10 * ((N : ℚ) / 2 ^ 52) - 1 / 2 = (20 * N - 2 ^ 52) / 2 ^ 53 := by
      ring
    rw [hlhs, div_lt_iff₀ (by positivity)]
    linarith
  · have hrhs : 10 * ((N : ℚ) / 2 ^ 52) + 1 / 2 = (20 * N + 2 ^ 52) / 2 ^ 53 := by
      ring
    rw [hrhs, le_div_iff₀ (by positivity)]
    linarith

/-- C9 (amended): `formatSubscribers` maps a null count to null; a count of at
least one million to the IEEE-754 double value of `count / 1000000` rendered
with exactly one decimal digit (the tenths integer nearest the double, ties
upward) followed by `M`; a count between one thousand and one million to the
double value of `count / 1000` likewise followed by `K`; and smaller counts
to their plain decimal string.  At counts whose exact quotient lies on a
tenths tie the rendered digit can be one tenth below exact half-up rounding
of the rational quotient. -/
theorem format_subscribers_double (count : Option ℤ) :
    formatSubscribers none = none ∧
    (∀ c : ℤ, count = some c → 1000000 ≤ c →
      ∃ t : ℕ, formatSubscribers count
          = some (toString (t / 10) ++ "." ++ toString (t % 10) ++ "M") ∧
        t % 10 < 10 ∧
        10 * doubleVal c.toNat 1000000 - 1 / 2 < (t : ℚ) ∧
        (t : ℚ) ≤ 10 * doubleVal c.toNat 1000000 + 1 / 2) ∧
    (∀ c : ℤ, count = some c → 1000 ≤ c → c < 1000000 →
      ∃ t : ℕ, formatSubscribers count
          = some (toString (t / 10) ++ "." ++ toString (t % 10) ++ "K") ∧
        t % 10 < 10 ∧
        10 * doubleVal c.toNat 1000 - 1 / 2 < (t : ℚ) ∧
        (t : ℚ) ≤ 10 * doubleVal c.toNat 1000 + 1 / 2) ∧
    (∀ c : ℤ, count = some c → c < 1000 → formatSubscribers count = some (toString c)) := by
  refine ⟨rfl, ?_, ?_, ?_⟩
  · rintro c rfl hc
    refine ⟨doubleTenths c.toNat 1000000, ?_, Nat.mod_lt _ (by norm_num),
      (doubleTenths_interval c.toNat 1000000).1, (doubleTenths_interval c.toNat 1000000).2⟩
    simp [formatSubscribers, renderTenths, hc, String.append_assoc]
  · rintro c rfl hc hc'
    have hlt : ¬ (1000000 : ℤ) ≤ c := by omega
    refine ⟨doubleTenths c.toNat 1000, ?_, Nat.mod_lt _ (by norm_num),
      (doubleTenths_interval c.toNat 1000).1, (doubleTenths_interval c.toNat 1000).2⟩
    simp [formatSubscribers, renderTenths, hc, hlt, String.append_assoc]
  · rintro c rfl hc
    have h1 : ¬ (1000000 : ℤ) ≤ c := by omega
    have h2 : ¬ (1000 : ℤ) ≤ c := by omega
    simp [formatSubscribers, h1, h2]

theorem format_subscribers_double_witness :
    (some (2500000 : ℤ) = some (2500000 : ℤ)) ∧ ((1000000 : ℤ) ≤ 2500000) ∧
    (∃ t : ℕ, formatSubscribers (some 2500000)
        = some (toString (t / 10) ++ "." ++ toString (t % 10) ++ "M") ∧
      t % 10 < 10 ∧
      10 * doubleVal (2500000 : ℤ).toNat 1000000 - 1 / 2 < (t : ℚ) ∧
      (t : ℚ) ≤ 10 * doubleVal (2500000 : ℤ).toNat 1000000 + 1 / 2) :=
  ⟨rfl, by decide, (format_subscribers_double (some 2500000)).2.1 2500000 rfl (by decide)⟩

/-- C9 counterexample: at count 1150000 the exact quotient 1.15 lies on a
tenths tie; the program's double pipeline renders `1.1M` (the binary64 value
of `1150000 / 1000000` is strictly below 1.15), while exact one-decimal
rounding of the rational quotient renders `1.2M`. -/
theorem format_subscribers_tie_counterexample :
    formatSubscribers (some 1150000) = some "1.1M" ∧
    renderTenths (exactHalfUpTenths 1150000 1000000) ++ "M" = "1.2M" ∧
    formatSubscribers (some 1150000)
      ≠ some (renderTenths (exactHalfUpTenths 1150000 1000000) ++ "M") :=
  ⟨by decide, by decide, by decide⟩

/-- C10: the Telegram language detector's lookup maps every non-empty code
starting with `ru` to `ru`, every other non-empty code to `en`, and returns
nothing exactly when no code is available (absent or empty), so only `ru` and
`en` can ever be selected through it. -/
theorem telegram_language_lookup (code : Option String) :
    (telegramLookup code = none ↔ code = none ∨ code = some "") ∧
    (telegramLookup code = some "ru" ↔
      ∃ c, code = some c ∧ c ≠ "" ∧ c.startsWith "ru" = true) ∧
    (telegramLookup code = some "en" ↔
      ∃ c, code = some c ∧ c ≠ "" ∧ c.startsWith "ru" = false) ∧
    (telegramLookup code = none ∨ telegramLookup code = some "ru" ∨
      telegramLookup code = some "en") := by
  cases code with
  | none => simp [telegramLookup]
  | some c =>
    by_cases hc : c = ""
    · subst hc; simp [telegramLookup]
    · cases hS : c.startsWith "ru" with
      | false => simp [telegramLookup, hc, hS]
      | true => simp [telegramLookup, hc, hS]

/-- C3: the returned result list never exceeds the requested limit, a limit of
0 yields an empty list, and an unspecified limit is truncated to the bounded
default cap of 20. -/
theorem limit_respected (cfg : Config) (recs : List Record) (q : String)
    (stk : Option String) (lim : Option ℕ) :
    (searchDomain cfg recs q stk lim).length ≤ lim.getD defaultCap ∧
    searchDomain cfg recs q stk (some 0) = [] ∧
    defaultCap = 20 := by
  refine ⟨?_, ?_, rfl⟩
  · simp [searchDomain]
  · simp [searchDomain]

/-- C2: the Hybrid Ranker's result list carries, for every returned record,
exactly the weighted final score `w_bm25 * bm25 + w_regex * boost` (missing
signals taken as 0), contains no record whose final score is 0, and is sorted
by descending final score with ties broken by ascending original record
position. -/
theorem ranker_excludes_zero_and_sorted (cfg : Config) (recs : List Record)
    (q : String) (stk : Option String) (lim : Option ℕ) :
    List.Forall (fun p : ℕ × ℝ =>
        p.2 = finalScore cfg.wb cfg.wr (bm25ScoreMap cfg.k1 cfg.b recs (tokenize q))
          (regexBoostFrom q cfg.bonus 0 recs) p.1 ∧ p.2 ≠ 0)
      (searchDomain cfg recs q stk lim) ∧
    List.Sorted rankLE (searchDomain cfg recs q stk lim) := by
  constructor
  · rw [List.forall_iff_forall_mem]
    intro x hx
    have hx' : x ∈ rankDomain cfg recs q stk := by
      simp only [searchDomain] at hx
      exact List.take_subset _ _ hx
    simp only [rankDomain] at hx'
    have hx'' := (List.perm_insertionSort rankLE _).mem_iff.mp hx'
    rcases List.mem_filter.mp hx'' with ⟨hmem, hpred⟩
    rcases List.mem_map.mp hmem with ⟨i, _, rfl⟩
    exact ⟨rfl, by simpa using hpred⟩
  · simp only [searchDomain]
    exact (List.sorted_insertionSort rankLE _).sublist (List.take_sublist _ _)

section SortFilter

variable {α : Type*} (r : α → α → Prop) [DecidableRel r]

theorem orderedInsert_of_le_all {a : α} {l : List α} (h : ∀ x ∈ l, r a x) :
    List.orderedInsert r a l = a :: l := by
  cases l with
  | nil => rfl
  | cons c t =>
    have hb : r a c := h c (by simp)
    simp [List.orderedInsert, hb]

theorem filter_orderedInsert_neg (Q : α → Bool) (a : α) (l : List α)
    (ha : Q a = false) :
    (List.orderedInsert r a l).filter Q = l.filter Q := by
  induction l with
  | nil => simp [List.orderedInsert, ha]
  | cons c t ih =>
    by_cases hab : r a c
    · simp [List.orderedInsert, hab, ha]
    · simp only [List.orderedInsert, if_neg hab, List.filter_cons, ih]

theorem filter_orderedInsert_pos [IsTrans α r] (Q : α → Bool) (a : α) :
    ∀ l : List α, l.Sorted r → Q a = true →
      (List.orderedInsert r a l).filter Q = List.orderedInsert r a (l.filter Q) := by
  intro l
  induction l with
  | nil => intro _ ha; simp [List.orderedInsert, ha]
  | cons c t ih =>
    intro hs ha
    by_cases hab : r a c
    · have hall : ∀ x ∈ (c :: t).filter Q, r a x := by
        intro x hx
        have hx' : x ∈ c :: t := List.mem_of_mem_filter hx
        rcases List.mem_cons.mp hx' with rfl | hxt
        · exact hab
        · exact Trans.trans hab (List.rel_of_sorted_cons hs x hxt)
      rw [orderedInsert_of_le_all r hall]
      simp [List.orderedInsert, hab, List.filter_cons, ha]
    · have hst : t.Sorted r := hs.of_cons
      cases hb : Q c with
      | true =>
        simp only [List.orderedInsert, if_neg hab, List.filter_cons, hb, if_pos rfl,
          ih hst ha]
        simp
      | false =>
        simp only [List.orderedInsert, if_neg hab, List.filter_cons, hb, ih hst ha]
        simp

theorem filter_insertionSort [IsTotal α r] [IsTrans α r] (Q : α → Bool) (l : List α) :
    (List.insertionSort r l).filter Q = List.insertionSort r (l.filter Q) := by
  induction l with
  | nil => rfl
  | cons a t ih =>
    cases ha : Q a with
    | true =>
      simp only [List.insertionSort, List.filter_cons, ha, if_pos rfl]
      rw [filter_orderedInsert_pos r Q a _ (List.sorted_insertionSort r t) ha, ih]
    | false =>
      simp only [List.insertionSort, List.filter_cons, ha]
      rw [filter_orderedInsert_neg r Q a _ ha, ih]
      simp

end SortFilter

theorem filter_map_filter (P : ℕ → Bool) (g : ℕ → ℝ) (z : ℕ × ℝ → Bool)
    (l : List ℕ) :
    ((l.filter P).map fun i => (i, g i)).filter z
      = ((l.map fun i => (i, g i)).filter z).filter fun p => P p.1 := by
  induction l with
  | nil => rfl
  | cons a t ih =>
    cases hP : P a with
    | true =>
      cases hz : z (a, g a) with
      | true => simp [List.filter_cons, hP, hz, ih]
      | false => simp [List.filter_cons, hP, hz, ih]
    | false =>
      cases hz : z (a, g a) with
      | true => simp [List.filter_cons, hP, hz, ih]
      | false => simp [List.filter_cons, hP, hz, ih]

theorem rankDomain_stack_comm (cfg : Config) (recs : List Record) (q : String)
    (s : String) :
    rankDomain cfg recs q (some s) = rankDomainPost cfg recs q s := by
  simp only [rankDomain, rankDomainPost, eligiblePositions]
  rw [filter_insertionSort rankLE (fun p : ℕ × ℝ => stackOkB recs s p.1)]
  congr 1
  exact filter_map_filter _ _ _ _

/-- C4: narrowing the candidate set to stack-compatible records before
scoring returns exactly the same truncated result list as applying the same
narrowing as a post-filter after ranking, and under either placement no
returned record is tagged for a stack other than the requested one. -/
theorem stack_filter_equivalent (cfg : Config) (recs : List Record)
    (q : String) (s : String) (lim : Option ℕ) :
    searchDomain cfg recs q (some s) lim
      = (rankDomainPost cfg recs q s).take (lim.getD defaultCap) ∧
    List.Forall (fun p : ℕ × ℝ => stackOkB recs s p.1 = true)
      (searchDomain cfg recs q (some s) lim) ∧
    List.Forall (fun p : ℕ × ℝ => stackOkB recs s p.1 = true)
      ((rankDomainPost cfg recs q s).take (lim.getD defaultCap)) := by
  have hEq : searchDomain cfg recs q (some s) lim
      = (rankDomainPost cfg recs q s).take (lim.getD defaultCap) := by
    simp only [searchDomain, rankDomain_stack_comm]
  have hPost : List.Forall (fun p : ℕ × ℝ => stackOkB recs s p.1 = true)
      ((rankDomainPost cfg recs q s).take (lim.getD defaultCap)) := by
    rw [List.forall_iff_forall_mem]
    intro x hx
    have hx' : x ∈ rankDomainPost cfg recs q s := List.take_subset _ _ hx
    simp only [rankDomainPost] at hx'
    exact (List.mem_filter.mp hx').2
  exact ⟨hEq, hEq ▸ hPost, hPost⟩

theorem idf_nonneg (n dfv : ℕ) (h : dfv ≤ n) : 0 ≤ idf n dfv := by
  unfold idf
  apply Real.log_nonneg
  have hc : (dfv : ℝ) ≤ (n : ℝ) := Nat.cast_le.mpr h
  have h1 : (0 : ℝ) ≤ ((n : ℝ) - (dfv : ℝ) + 1 / 2) / ((dfv : ℝ) + 1 / 2) := by
    apply div_nonneg
    · linarith
    · positivity
  linarith

/-- C6: increasing the raw term frequency of a query term within a record,
all other index quantities (document length, average length, document
frequency, corpus size, k1, b) held equal, never decreases that record's BM25
contribution for the term. -/
theorem bm25_tf_monotone (k1 b dl av : ℝ) (n dfv tf1 tf2 : ℕ)
    (hdf : dfv ≤ n) (htf : tf1 ≤ tf2) (hk : 0 < k1)
    (hnorm : 0 < 1 - b + b * dl / av) :
    contrib k1 b (idf n dfv) tf1 dl av ≤ contrib k1 b (idf n dfv) tf2 dl av := by
  have hiv : 0 ≤ idf n dfv := idf_nonneg n dfv hdf
  set K := k1 * (1 - b + b * dl / av) with hK
  have hKpos : 0 < K := mul_pos hk hnorm
  have ht : (tf1 : ℝ) ≤ (tf2 : ℝ) := Nat.cast_le.mpr htf
  have h1 : (0 : ℝ) ≤ (tf1 : ℝ) := Nat.cast_nonneg tf1
  have hk1 : (0 : ℝ) < k1 + 1 := by linarith
  have h2 : (0 : ℝ) ≤ (tf2 : ℝ) := Nat.cast_nonneg tf2
  unfold contrib
  rw [← hK, div_le_div_iff₀ (by linarith) (by linarith)]
  nlinarith [mul_nonneg (mul_nonneg (mul_nonneg hiv hk1.le) hKpos.le)
    (sub_nonneg.mpr ht)]

theorem lookup_addScore (m : List (ℕ × ℝ)) (i : ℕ) (x : ℝ) (j : ℕ) :
    (addScore m i x).lookup j
      = if j = i then some (((m.lookup j).getD 0) + x) else m.lookup j := by
  induction m with
  | nil =>
    by_cases h : j = i
    · subst h
      simp [addScore, List.lookup_cons]
    · have hb : (j == i) = false := beq_eq_false_iff_ne.mpr h
      simp [addScore, List.lookup_cons, hb, h]
  | cons kv m ih =>
    obtain ⟨k, v⟩ := kv
    by_cases hk : k = i
    · subst hk
      by_cases hj : j = k
      · subst hj
        simp [addScore, List.lookup_cons]
      · have hb : (j == k) = false := beq_eq_false_iff_ne.mpr hj
        simp [addScore, List.lookup_cons, hb, hj]
    · by_cases hj : j = k
      · subst hj
        have hk' : ¬ j = i := hk
        simp [addScore, hk, List.lookup_cons, hk']
      · have hb : (j == k) = false := beq_eq_false_iff_ne.mpr hj
        simp [addScore, hk, List.lookup_cons, hb, ih]

theorem lookup_foldl_addScore (f : ℕ × ℕ → ℝ) (ps : List (ℕ × ℕ)) :
    ∀ (m : List (ℕ × ℝ)) (j : ℕ),
      (ps.foldl (fun acc p => addScore acc p.1 (f p)) m).lookup j
        = if ∃ p ∈ ps, p.1 = j then
            some (((m.lookup j).getD 0)
              + ((ps.filter fun p => decide (p.1 = j)).map f).sum)
          else m.lookup j := by
  induction ps with
  | nil => intro m j; simp
  | cons p ps ih =>
    intro m j
    simp only [List.foldl_cons]
    rw [ih]
    by_cases hp : p.1 = j
    · have hl : (addScore m p.1 (f p)).lookup j
          = some (((m.lookup j).getD 0) + f p) := by
        rw [lookup_addScore, if_pos hp.symm]
      have hcons : ∃ q ∈ p :: ps, q.1 = j := ⟨p, List.mem_cons_self p ps, hp⟩
      have hfc : (p :: ps).filter (fun q => decide (q.1 = j))
          = p :: ps.filter (fun q => decide (q.1 = j)) :=
        List.filter_cons_of_pos (by simpa using hp)
      rw [if_pos hcons, hfc, List.map_cons, List.sum_cons]
      by_cases hex : ∃ q ∈ ps, q.1 = j
      · rw [if_pos hex, hl]
        simp only [Option.getD_some]
        rw [add_assoc]
      · rw [if_neg hex, hl]
        have hnil : ps.filter (fun q => decide (q.1 = j)) = [] := by
          rw [List.filter_eq_nil_iff]
          intro a ha
          simp only [decide_eq_true_eq]
          exact fun h => hex ⟨a, ha, h⟩
        rw [hnil]
        simp
    · have hl : (addScore m p.1 (f p)).lookup j = m.lookup j := by
        rw [lookup_addScore, if_neg (fun h => hp h.symm)]
      have hfc : (p :: ps).filter (fun q => decide (q.1 = j))
          = ps.filter (fun q => decide (q.1 = j)) :=
        List.filter_cons_of_neg (by simpa using hp)
      have hcond : (∃ q ∈ p :: ps, q.1 = j) ↔ (∃ q ∈ ps, q.1 = j) := by
        constructor
        · rintro ⟨q, hq, hqj⟩
          rcases List.mem_cons.mp hq with rfl | hq'
          · exact absurd hqj hp
          · exact ⟨q, hq', hqj⟩
        · rintro ⟨q, hq, hqj⟩
          exact ⟨q, List.mem_cons_of_mem _ hq, hqj⟩
      rw [hfc]
      by_cases hex : ∃ q ∈ ps, q.1 = j
      · rw [if_pos hex, if_pos (hcond.mpr hex), hl]
      · rw [if_neg hex, if_neg (fun h => hex (hcond.mp h)), hl]

theorem postingsFrom_length (t : String) :
    ∀ (n : ℕ) (recs : List Record),
      (postingsFrom t n recs).length = df t recs := by
  intro n recs
  induction recs generalizing n with
  | nil => rfl
  | cons d ds ih =>
    have ih' := ih (n + 1)
    simp only [df] at ih' ⊢
    by_cases h : t ∈ tokensOf d
    · rw [postingsFrom, if_pos h, List.length_cons,
        List.filter_cons_of_pos (by simpa using h), List.length_cons, ih']
    · rw [postingsFrom, if_neg h,
        List.filter_cons_of_neg (by simpa using h), ih']

theorem postingsFrom_key_lb (t : String) :
    ∀ (n : ℕ) (recs : List Record) (p : ℕ × ℕ),
      p ∈ postingsFrom t n recs → n ≤ p.1 := by
  intro n recs
  induction recs generalizing n with
  | nil => intro p hp; simp [postingsFrom] at hp
  | cons d ds ih =>
    intro p hp
    by_cases h : t ∈ tokensOf d
    · rw [postingsFrom, if_pos h] at hp
      rcases List.mem_cons.mp hp with rfl | hp'
      · exact le_refl n
      · exact Nat.le_of_succ_le (ih (n + 1) p hp')
    · rw [postingsFrom, if_neg h] at hp
      exact Nat.le_of_succ_le (ih (n + 1) p hp)

theorem postingsFrom_filter_key (t : String) :
    ∀ (recs : List Record) (n i : ℕ) (d : Record), recs.get? i = some d →
      (postingsFrom t n recs).filter (fun p => decide (p.1 = n + i))
        = if t ∈ tokensOf d then [(n + i, tf t d)] else [] := by
  intro recs
  induction recs with
  | nil => intro n i d hd; simp at hd
  | cons e rest ih =>
    intro n i d hd
    cases i with
    | zero =>
      have hde : e = d := by simpa using hd
      subst hde
      have hrest : (postingsFrom t (n + 1) rest).filter
          (fun p => decide (p.1 = n + 0)) = [] := by
        rw [List.filter_eq_nil_iff]
        intro p hp
        have hlb := postingsFrom_key_lb t (n + 1) rest p hp
        simp only [decide_eq_true_eq]
        omega
      by_cases h : t ∈ tokensOf e
      · rw [postingsFrom, if_pos h,
          List.filter_cons_of_pos (by simp), hrest, if_pos h]
        simp
      · rw [postingsFrom, if_neg h, hrest, if_neg h]
    | succ i' =>
      have hd' : rest.get? i' = some d := by simpa using hd
      have hkey : n + (i' + 1) = (n + 1) + i' := by omega
      by_cases h : t ∈ tokensOf e
      · rw [postingsFrom, if_pos h,
          List.filter_cons_of_neg (by simp only [decide_eq_true_eq]; omega),
          hkey, ih (n + 1) i' d hd']
      · rw [postingsFrom, if_neg h, hkey, ih (n + 1) i' d hd']

theorem applyTerm_lookup (k1 b : ℝ) (recs : List Record) (m : List (ℕ × ℝ))
    (t : String) (i : ℕ) (d : Record) (hd : recs.get? i = some d) :
    (applyTerm k1 b recs m t).lookup i
      = if t ∈ tokensOf d then
          some (((m.lookup i).getD 0) + contribOf k1 b recs t d)
        else m.lookup i := by
  have hfil := postingsFrom_filter_key t recs 0 i d hd
  simp only [Nat.zero_add] at hfil
  simp only [applyTerm]
  rw [lookup_foldl_addScore]
  have hex : (∃ p ∈ postingsFrom t 0 recs, p.1 = i) ↔ t ∈ tokensOf d := by
    constructor
    · rintro ⟨p, hp, hpi⟩
      by_contra h
      rw [if_neg h] at hfil
      have hmem : p ∈ (postingsFrom t 0 recs).filter (fun q => decide (q.1 = i)) :=
        List.mem_filter.mpr ⟨hp, by simp [hpi]⟩
      rw [hfil] at hmem
      simp at hmem
    · intro h
      rw [if_pos h] at hfil
      have hmem : (i, tf t d) ∈ (postingsFrom t 0 recs).filter
          (fun q => decide (q.1 = i)) := by
        rw [hfil]; simp
      exact ⟨(i, tf t d), (List.mem_filter.mp hmem).1, rfl⟩
  by_cases h : t ∈ tokensOf d
  · rw [if_pos (hex.mpr h), if_pos h]
    rw [if_pos h] at hfil
    rw [hfil]
    have hlen : lenAt recs i = (dlen d : ℝ) := by simp only [lenAt, hd]
    simp [contribOf, postingsFrom_length, hlen]
  · rw [if_neg (fun hx => h (hex.mp hx)), if_neg h]

theorem lookup_foldl_applyTerm (k1 b : ℝ) (recs : List Record) (i : ℕ)
    (d : Record) (hd : recs.get? i = some d) (ts : List String) :
    ∀ m : List (ℕ × ℝ),
      ((ts.foldl (applyTerm k1 b recs) m).lookup i)
        = if ∃ t ∈ ts, t ∈ tokensOf d then
            some (((m.lookup i).getD 0)
              + ((ts.filter fun t => decide (t ∈ tokensOf d)).map
                  fun t => contribOf k1 b recs t d).sum)
          else m.lookup i := by
  induction ts with
  | nil => intro m; simp
  | cons t ts ih =>
    intro m
    simp only [List.foldl_cons]
    rw [ih]
    by_cases ht : t ∈ tokensOf d
    · have hl := applyTerm_lookup k1 b recs m t i d hd
      rw [if_pos ht] at hl
      have hcons : ∃ u ∈ t :: ts, u ∈ tokensOf d := ⟨t, List.mem_cons_self t ts, ht⟩
      have hfc : (t :: ts).filter (fun u => decide (u ∈ tokensOf d))
          = t :: ts.filter (fun u => decide (u ∈ tokensOf d)) :=
        List.filter_cons_of_pos (by simpa using ht)
      rw [if_pos hcons, hfc, List.map_cons, List.sum_cons]
      by_cases hex : ∃ u ∈ ts, u ∈ tokensOf d
      · rw [if_pos hex, hl]
        simp only [Option.getD_some]
        rw [add_assoc]
      · rw [if_neg hex, hl]
        have hnil : ts.filter (fun u => decide (u ∈ tokensOf d)) = [] := by
          rw [List.filter_eq_nil_iff]
          intro a ha
          simp only [decide_eq_true_eq]
          exact fun h => hex ⟨a, ha, h⟩
        rw [hnil]
        simp
    · have hl := applyTerm_lookup k1 b recs m t i d hd
      rw [if_neg ht] at hl
      have hfc : (t :: ts).filter (fun u => decide (u ∈ tokensOf d))
          = ts.filter (fun u => decide (u ∈ tokensOf d)) :=
        List.filter_cons_of_neg (by simpa using ht)
      have hcond : (∃ u ∈ t :: ts, u ∈ tokensOf d) ↔ (∃ u ∈ ts, u ∈ tokensOf d) := by
        constructor
        · rintro ⟨u, hu, hud⟩
          rcases List.mem_cons.mp hu with rfl | hu'
          · exact absurd hud ht
          · exact ⟨u, hu', hud⟩
        · rintro ⟨u, hu, hud⟩
          exact ⟨u, List.mem_cons_of_mem _ hu, hud⟩
      rw [hfc]
      by_cases hex : ∃ u ∈ ts, u ∈ tokensOf d
      · rw [if_pos hex, if_pos (hcond.mpr hex), hl]
      · rw [if_neg hex, if_neg (fun h => hex (hcond.mp h)), hl]

/-- C1: for every tokenized query, a candidate record (one sharing at least
one query term) receives from the BM25 scorer exactly the closed-form score:
the sum, over distinct query terms present in the record, of
`idf * (tf * (k1 + 1)) / (tf + k1 * (1 - b + b * |d| / avgdl))` with
`idf = ln((N - df + 0.5) / (df + 0.5) + 1)`; a record sharing no query term
receives no BM25 entry at all. -/
theorem bm25_closed_form (k1 b : ℝ) (recs : List Record) (qts : List String)
    (i : ℕ) (d : Record) (hd : recs.get? i = some d) :
    ((∃ t ∈ qts, t ∈ tokensOf d) →
      (bm25ScoreMap k1 b recs qts).lookup i = some (bm25At k1 b recs qts d)) ∧
    ((∀ t ∈ qts, t ∉ tokensOf d) →
      (bm25ScoreMap k1 b recs qts).lookup i = none) := by
  have hmain := lookup_foldl_applyTerm k1 b recs i d hd qts.dedup []
  constructor
  · intro hex
    have hex' : ∃ t ∈ qts.dedup, t ∈ tokensOf d := by
      rcases hex with ⟨t, ht, htd⟩
      exact ⟨t, List.mem_dedup.mpr ht, htd⟩
    rw [bm25ScoreMap, hmain, if_pos hex']
    simp [bm25At]
  · intro hall
    have hex' : ¬ ∃ t ∈ qts.dedup, t ∈ tokensOf d := by
      rintro ⟨t, ht, htd⟩
      exact hall t (List.mem_dedup.mp ht) htd
    rw [bm25ScoreMap, hmain, if_neg hex']
    simp

theorem bm25_closed_form_witness :
    (([⟨[("title", "a b")], none⟩] : List Record).get? 0
        = some ⟨[("title", "a b")], none⟩) ∧
    (∃ t ∈ ["a"], t ∈ tokensOf ⟨[("title", "a b")], none⟩) ∧
    (bm25ScoreMap 1 0 [⟨[("title", "a b")], none⟩] ["a"]).lookup 0
      = some (bm25At 1 0 [⟨[("title", "a b")], none⟩] ["a"]
          ⟨[("title", "a b")], none⟩) :=
  ⟨rfl, by decide,
    (bm25_closed_form 1 0 [⟨[("title", "a b")], none⟩] ["a"] 0
      ⟨[("title", "a b")], none⟩ rfl).1 (by decide)⟩

theorem bm25_tf_monotone_witness :
    ((0 : ℕ) ≤ 1) ∧ ((0 : ℕ) ≤ 1) ∧ ((0 : ℝ) < 1) ∧
    ((0 : ℝ) < 1 - 0 + 0 * 0 / 1) ∧
    contrib 1 0 (idf 1 0) 0 0 1 ≤ contrib 1 0 (idf 1 0) 1 0 1 :=
  ⟨by decide, by decide, zero_lt_one, by simp,
    bm25_tf_monotone 1 0 0 1 1 0 0 1 (by decide) (by decide) zero_lt_one (by simp)⟩

/-- C5: `search` fails with `InvalidDomainError` exactly on an unknown domain
identifier, with `InvalidStackError` exactly on an unknown stack identifier
(under a resolvable domain), with `CorpusLoadError` exactly when a needed
corpus file fails to load (under valid identifiers), and on every valid input
it returns its ranked result list as a normal value — in particular an empty
list, when nothing clears the relevance floor, is an `ok` value and never an
exception. -/
theorem search_error_characterization (cfg : Config) (domains : List DomainData)
    (validStacks : List String) (q : String) (dom : Option String)
    (stk : Option String) (lim : Option ℕ) :
    (search cfg domains validStacks q dom stk lim = .error .invalidDomain ↔
      ¬ domainResolves domains dom) ∧
    (search cfg domains validStacks q dom stk lim = .error .invalidStack ↔
      domainResolves domains dom ∧ ¬ stackValid validStacks stk) ∧
    (search cfg domains validStacks q dom stk lim = .error .corpusLoad ↔
      domainResolves domains dom ∧ stackValid validStacks stk ∧
        ¬ corpusOK domains dom) ∧
    (search cfg domains validStacks q dom stk lim
        = .ok (searchResults cfg domains q dom stk lim) ↔
      domainResolves domains dom ∧ stackValid validStacks stk ∧
        corpusOK domains dom) ∧
    ((∃ l, search cfg domains validStacks q dom stk lim = .ok l) ↔
      domainResolves domains dom ∧ stackValid validStacks stk ∧
        corpusOK domains dom) := by
  cases dom with
  | some dn =>
    cases hfind : domains.find? (fun dd => dd.name == dn) with
    | none =>
      simp [search, searchResults, domainResolves, stackValid, corpusOK, hfind]
    | some dd =>
      cases stk with
      | some s =>
        cases hcont : validStacks.contains s with
        | false =>
          have hs : s ∉ validStacks := by simpa using hcont
          simp [search, searchResults, domainResolves, stackValid, corpusOK,
            hfind, hcont, hs]
        | true =>
          have hs : s ∈ validStacks := by simpa using hcont
          cases htab : dd.table with
          | none =>
            simp [search, searchResults, domainResolves, stackValid, corpusOK,
              hfind, hcont, hs, htab]
          | some recs =>
            simp [search, searchResults, domainResolves, stackValid, corpusOK,
              hfind, hcont, hs, htab]
      | none =>
        cases htab : dd.table with
        | none =>
          simp [search, searchResults, domainResolves, stackValid, corpusOK,
            hfind, htab]
        | some recs =>
          simp [search, searchResults, domainResolves, stackValid, corpusOK,
            hfind, htab]
  | none =>
    cases stk with
    | some s =>
      cases hcont : validStacks.contains s with
      | false =>
        have hs : s ∉ validStacks := by simpa using hcont
        simp [search, searchResults, domainResolves, stackValid, corpusOK,
          hcont, hs]
      | true =>
        have hs : s ∈ validStacks := by simpa using hcont
        cases hload : loadAll domains with
        | none =>
          simp [search, searchResults, domainResolves, stackValid, corpusOK,
            hcont, hs, hload]
        | some ts =>
          simp [search, searchResults, domainResolves, stackValid, corpusOK,
            hcont, hs, hload]
    | none =>
      cases hload : loadAll domains with
      | none =>
        simp [search, searchResults, domainResolves, stackValid, corpusOK, hload]
      | some ts =>
        simp [search, searchResults, domainResolves, stackValid, corpusOK, hload]

/-- C7: `search` is a pure function of its arguments: two invocations with
identical query, domain, stack and limit over the same fixed corpora produce
identical ordered result lists, and the Tokenizer maps identical input text
to identical token sequences. -/
theorem search_deterministic (cfg : Config) (domains : List DomainData)
    (validStacks : List String) (q q' : String) (dom dom' : Option String)
    (stk stk' : Option String) (lim lim' : Option ℕ)
    (hq : q = q') (hdom : dom = dom') (hstk : stk = stk') (hlim : lim = lim') :
    search cfg domains validStacks q dom stk lim
      = search cfg domains validStacks q' dom' stk' lim' ∧
    tokenize q = tokenize q' := by
  subst hq
  subst hdom
  subst hstk
  subst hlim
  exact ⟨rfl, rfl⟩

theorem search_deterministic_witness :
    ("query" = "query") ∧
    (search ⟨1, 0, 1, 1, 1⟩ [] [] "query" none none none
        = search ⟨1, 0, 1, 1, 1⟩ [] [] "query" none none none ∧
      tokenize "query" = tokenize "query") :=
  ⟨rfl, search_deterministic ⟨1, 0, 1, 1, 1⟩ [] [] "query" "query"
    none none none none none none rfl rfl rfl rfl⟩

end AdMarket
